import Mathlib

/-!
Verification of the omega cog (src/cogs/omega.py) of the Omega-Robot
repository.

Python strings are modelled as Lean `String` (a sequence of unicode code
points, accessed through `.data : List Char`, matching Python's code-point
indexing).  Python dicts keyed by message ids are modelled as functions
`Nat → Option Nat`.  HTTP responses are modelled as oracles passed to the
handlers: `Except status payload` is the outcome of one GET request.
-/

set_option maxRecDepth 4000

namespace OmegaRobot

/-! ## String helpers (Python primitives) -/

/-- Python `s[:n]` on a string: the first `n` code points. -/
def pyTake (s : String) (n : Nat) : String := String.mk (s.data.take n)

/-- `"\n".join(lines)` from Python. -/
def joinNL : List String → String
  | [] => ""
  | [x] => x
  | x :: y :: t => x ++ "\n" ++ joinNL (y :: t)

/-- `sep.join(parts)` from Python. -/
def joinSep (sep : String) : List String → String
  | [] => ""
  | [x] => x
  | x :: y :: t => x ++ sep ++ joinSep sep (y :: t)

/-- `lst.pop(i)` from Python for `0 <= i`: returns the removed element and the
remaining list, or `none` when `i` is out of range (Python raises IndexError). -/
def pyPop : List String → Nat → Option (String × List String)
  | [], _ => none
  | x :: t, 0 => some (x, t)
  | x :: t, i + 1 => (pyPop t i).map (fun p => (p.1, x :: p.2))

/-- `lst.insert(i, x)` from Python: inserts at index `i`, appending at the end
when `i` exceeds the current length (Python clamps the index). -/
def pyInsert (i : Nat) (x : String) : List String → List String
  | [] => [x]
  | y :: t =>
    match i with
    | 0 => x :: y :: t
    | j + 1 => y :: pyInsert j x t

/-- `s.strip(chars)` from Python on a code-point list: removes from both ends
every leading/trailing character contained in `chars`. -/
def pyStripChars (chars : List Char) (s : List Char) : List Char :=
  ((s.dropWhile (fun c => chars.contains c)).reverse.dropWhile
    (fun c => chars.contains c)).reverse

/-- `s.capitalize()` from Python: first character uppercased, the rest
lowercased. -/
def capitalizePy (s : String) : String :=
  match s.data with
  | [] => ""
  | c :: t => String.mk (c.toUpper :: t.map Char.toLower)

/-- Sum over the lines of (length of the line + 1): the length every line
contributes to a newline-join, plus one for the final line. -/
def cost : List String → Nat
  | [] => 0
  | x :: t => x.length + 1 + cost t

/-! ## The Commits-field truncation (omega.py lines 84-96) -/

/-- The truncation loop of `make_embed` (omega.py lines 91-94):
`while diff > 0: line = formatted.pop(len(formatted) // 2); diff -= len(line) + 1`.
Returns `none` when the pop is attempted on an empty list (Python IndexError). -/
def truncLoop (lines : List String) (diff : Int) : Option (List String) :=
  if diff ≤ 0 then some lines
  else
    match h : pyPop lines (lines.length / 2) with
    | none => none
    | some (line, rest) => truncLoop rest (diff - ((line.length : Int) + 1))
termination_by lines.length
decreasing_by
  have key : ∀ (l : List String) (i : Nat) (p : String × List String),
      pyPop l i = some p → p.2.length + 1 = l.length := by
    intro l
    induction l with
    | nil => intro i p hp; simp [pyPop] at hp
    | cons a t ih =>
      intro i p hp
      cases i with
      | zero =>
        simp only [pyPop, Option.some.injEq] at hp
        rw [← hp]
        simp
      | succ j =>
        simp only [pyPop] at hp
        cases hq : pyPop t j with
        | none => rw [hq] at hp; simp at hp
        | some q =>
          rw [hq] at hp
          simp only [Option.map_some', Option.some.injEq] at hp
          have := ih j q hq
          rw [← hp]
          simp only [List.length_cons]
          omega
  have := key lines (lines.length / 2) (line, rest) h
  simp only at this
  omega

/-- The value of the "Commits" embed field built by `make_embed`
(omega.py lines 84-96): join the formatted commit lines; if over 1024
characters, run the middle-removal loop and insert a literal "..." line at
index `len(formatted) // 2 + 1`, then rejoin. -/
def commitsValue (formatted : List String) : Option String :=
  let result := joinNL formatted
  if result.length > 1024 then
    (truncLoop formatted ((result.length : Int) - 1024 + 4)).map
      (fun rem => joinNL (pyInsert (rem.length / 2 + 1) "..." rem))
  else
    some result

/-! ## The issue-reference regular expression (omega.py line 21)

`re.findall("(?=((^| )#[0-9]+([eul])?($| )))", message.content)` scans every
position of the text; the pattern inside the zero-width lookahead is attempted
once per position, so adjacent tokens sharing one space are both found.  The
model keeps, for each successful attempt, the structure of the matched group:
optional leading space, `#`, the digit run, the optional selector letter and
the optional trailing space.  Python's `$` (without MULTILINE) matches at the
end of the string and also just before a newline that ends the string. -/

/-- The regex class `[0-9]`. -/
def isDigitC (c : Char) : Bool := '0' ≤ c && c ≤ '9'

/-- The parsed shape of one match of the group `(^| )#[0-9]+([eul])?($| )`. -/
structure TokenInfo where
  leadSpace : Bool
  digits : List Char
  letter : Option Char
  trailSpace : Bool
deriving DecidableEq, Repr

/-- The raw text captured by group 1 for this match. -/
def TokenInfo.raw (t : TokenInfo) : List Char :=
  (if t.leadSpace then [' '] else []) ++ '#' :: t.digits ++
    (match t.letter with | some c => [c] | none => []) ++
    (if t.trailSpace then [' '] else [])

/-- Matches `#[0-9]+([eul])?($| )` against the suffix `cs`.  The digit run is
maximal (the regex is greedy and no digit can start the alternatives that
follow); if the optional letter is consumed but no right boundary follows, the
engine's backtrack (dropping the letter) also fails, because the letter itself
is neither a space nor an end position, so no backtracking case is needed. -/
def matchHash (lead : Bool) (cs : List Char) : Option TokenInfo :=
  match cs with
  | [] => none
  | c0 :: rest =>
    if c0 = '#' then
      let ds := rest.takeWhile isDigitC
      if ds = [] then none
      else
        match rest.drop ds.length with
        | [] => some ⟨lead, ds, none, false⟩
        | c :: rest2 =>
          if c = 'e' ∨ c = 'u' ∨ c = 'l' then
            if rest2 = [] ∨ rest2 = ['\n'] then some ⟨lead, ds, some c, false⟩
            else if rest2.head? = some ' ' then some ⟨lead, ds, some c, true⟩
            else none
          else if c = '\n' ∧ rest2 = [] then some ⟨lead, ds, none, false⟩
          else if c = ' ' then some ⟨lead, ds, none, true⟩
          else none
    else none

/-- One attempt of the full lookahead body `(^| )#[0-9]+([eul])?($| )` at the
current position: the `^` alternative applies only at the start of the string,
otherwise a literal space is consumed before the `#`. -/
def scanStep (atStart : Bool) (cs : List Char) : Option TokenInfo :=
  match (if atStart then matchHash false cs else none) with
  | some t => some t
  | none =>
    match cs with
    | [] => none
    | c :: rest => if c = ' ' then matchHash true rest else none

/-- The scan of `re.findall` over every position of the text (a zero-width
match advances the scan by one character). -/
def findallAux (atStart : Bool) : List Char → List TokenInfo
  | [] => []
  | c :: rest => (scanStep atStart (c :: rest)).toList ++ findallAux false rest

/-- All matches of the issue-reference pattern in the message content. -/
def findallModel (s : String) : List TokenInfo := findallAux true s.data

/-- The issue-number text extracted by `get_github_issues` (omega.py lines
25-27): `i[0].strip("#e ").strip("#u ").strip("#l ")`. -/
def issueOfToken (t : List Char) : List Char :=
  pyStripChars ['#', 'l', ' '] (pyStripChars ['#', 'u', ' ']
    (pyStripChars ['#', 'e', ' '] t))

/-- The repository chosen by `get_github_issues` (omega.py lines 29-36):
membership tests of "e", "u", "l" in the raw matched token. -/
def repoOfToken (t : List Char) : String :=
  if t.contains 'e' then "numworks/epsilon"
  else if t.contains 'u' then "UpsilonNumworks/Upsilon"
  else if t.contains 'l' then "Lambda-Numworks/Lambda"
  else "omega-numworks/omega"

/-- Issue reference (issue-number text, repository identifier) derived from
one raw match. -/
def refOfToken (t : TokenInfo) : String × String :=
  (String.mk (issueOfToken t.raw), repoOfToken t.raw)

/-- The sequence of issue references a message's content produces, in match
order. -/
def extractRefs (s : String) : List (String × String) :=
  (findallModel s).map refOfToken

/-! ## The issue fetch loop of `get_github_issues` (omega.py lines 23-46) -/

/-- The user-visible error notice `f"Erreur lors de la requête ({status})"`. -/
def requestErrorText (status : Nat) : String :=
  "Erreur lors de la requête (" ++ toString status ++ ")"

/-- The issue endpoint URL. -/
def githubIssueUrl (repo issue : String) : String :=
  "https://api.github.com/repos/" ++ repo ++ "/issues/" ++ issue

structure GithubUser where
  login : String
  html_url : String
  avatar_url : String
deriving DecidableEq, Repr

structure IssueLabel where
  name : String
deriving DecidableEq, Repr

structure PullRequestInfo where
  url : String
deriving DecidableEq, Repr

/-- The issue JSON record consumed by `make_embed`.  `closed_by` and
`closed_at` are read only when `state = "closed"` (the tracker provides them
exactly then).  `body` models the string case; a JSON null body would crash
`len(embed.description)` in the source and is outside this model. -/
structure IssueData where
  title : String
  html_url : String
  body : String
  user : GithubUser
  locked : Bool
  pull_request : Option PullRequestInfo
  comments : Nat
  state : String
  closed_by : GithubUser
  closed_at : String
  labels : List IssueLabel
deriving DecidableEq, Repr

/-- One commit JSON record of the pull request's commits list; the nested
accesses `commit["commit"]["message"]` and `commit["committer"]["login"]` are
flattened into plain fields. -/
structure CommitData where
  sha : String
  html_url : String
  message : String
  committer_login : String
deriving DecidableEq, Repr

/-- The result of iterating `get_github_issues`: the issue records yielded,
the URLs requested (in order) and the notices sent to the channel. -/
structure FetchTrace where
  yielded : List IssueData
  requested : List String
  notices : List String
deriving DecidableEq, Repr

/-- The loop body of `get_github_issues` over the already-extracted
references, driven by an HTTP oracle `http : url → Except status record`:
each reference issues one GET; a non-200 response sends one error notice and
stops the whole generator (the remaining references are never fetched). -/
def issuesLoop (http : String → Except Nat IssueData) :
    List (String × String) → FetchTrace
  | [] => ⟨[], [], []⟩
  | (issue, repo) :: rest =>
    let u := githubIssueUrl repo issue
    match http u with
    | Except.error status => ⟨[], [u], [requestErrorText status]⟩
    | Except.ok d =>
      let t := issuesLoop http rest
      ⟨d :: t.yielded, u :: t.requested, t.notices⟩

/-- `get_github_issues(message)` (omega.py lines 15-46): extract the
references of the message content, then fetch them in order with the
early-exit error policy. -/
def get_github_issues (http : String → Except Nat IssueData)
    (content : String) : FetchTrace :=
  issuesLoop http (extractRefs content)

/-! ## `make_embed` (omega.py lines 49-121) -/

structure EmbedField where
  name : String
  value : String
deriving DecidableEq, Repr

/-- The display-ready embed document. -/
structure EmbedDocument where
  title : String
  url : Option String
  description : String
  authorName : Option String
  authorUrl : Option String
  authorIcon : Option String
  fields : List EmbedField
  color : Option Nat
deriving DecidableEq, Repr

/-- The description truncation (omega.py lines 56-57):
`if len(description) > 2048: description = f"{description[:2043]}[...]"`. -/
def truncDescription (body : String) : String :=
  if body.length > 2048 then pyTake body 2043 ++ "[...]" else body

/-- One formatted commit line (omega.py lines 77-82):
`f"[\x60{sha[:7]}\x60]({html_url}) {message} - {login}"`. -/
def commitLine (c : CommitData) : String :=
  "[`" ++ pyTake c.sha 7 ++ "`](" ++ c.html_url ++ ") " ++ c.message ++
    " - " ++ c.committer_login

/-- The month abbreviations used by strftime's %b (C locale). -/
def monthAbbr (m : String) : String :=
  if m = "01" then "Jan" else if m = "02" then "Feb"
  else if m = "03" then "Mar" else if m = "04" then "Apr"
  else if m = "05" then "May" else if m = "06" then "Jun"
  else if m = "07" then "Jul" else if m = "08" then "Aug"
  else if m = "09" then "Sep" else if m = "10" then "Oct"
  else if m = "11" then "Nov" else if m = "12" then "Dec" else ""

/-- `s[a:b]` on a code-point list. -/
def sliceCh (s : String) (a b : Nat) : String :=
  String.mk ((s.data.drop a).take (b - a))

/-- `datetime.strptime(closed_at, "%Y-%m-%dT%H:%M:%SZ").strftime("%b. %d %H:%M %Y")`
(omega.py lines 104-106), modelled as the pure rearrangement it performs on a
well-formed timestamp: `YYYY-MM-DDTHH:MM:SSZ ↦ Mon. DD HH:MM YYYY`. -/
def formatClosedAt (s : String) : String :=
  monthAbbr (sliceCh s 5 7) ++ ". " ++ sliceCh s 8 10 ++ " " ++
    sliceCh s 11 13 ++ ":" ++ sliceCh s 14 16 ++ " " ++ sliceCh s 0 4

/-- The `additional_infos` lines of `make_embed`, appended in source order
(omega.py lines 64-117): lock notice, pull-request marker, comment count
(when non-zero: Python truthiness of the int), closed/open notice, labels
notice.  No truncation is applied to this list. -/
def additionalInfos (data : IssueData) : List String :=
  (if data.locked then [":lock: locked"] else []) ++
  (if data.pull_request.isSome then [":arrows_clockwise: Pull request"] else []) ++
  (if data.comments ≠ 0 then
    [":speech_balloon: Comments : " ++ toString data.comments] else []) ++
  (if data.state = "closed" then
    [":x: Closed by " ++ data.closed_by.login ++ " on " ++
      formatClosedAt data.closed_at]
   else if data.state = "open" then [":white_check_mark: Open"] else []) ++
  (if data.labels ≠ [] then
    [":label: Labels: `" ++
      joinSep "` `" (data.labels.map IssueLabel.name) ++ "`"] else [])

/-- `make_embed(data)` (omega.py lines 49-121).  The commits-list fetch is an
external GET; its parsed result is passed in as `commits_data` (used only when
`pull_request` is present).  The "Commits" field is added before the
"Additional informations" field.  `none` models the uncaught IndexError of the
truncation loop popping from an empty list. -/
def make_embed (data : IssueData) (commits_data : List CommitData) :
    Option EmbedDocument :=
  let desc := truncDescription data.body
  let info := joinNL (additionalInfos data)
  match data.pull_request with
  | some _ =>
    match commitsValue (commits_data.map commitLine) with
    | some v =>
      some ⟨data.title, some data.html_url, desc, some data.user.login,
        some data.user.html_url, some data.user.avatar_url,
        [⟨"Commits", v⟩, ⟨"Additional informations", info⟩], none⟩
    | none => none
  | none =>
    some ⟨data.title, some data.html_url, desc, some data.user.login,
      some data.user.html_url, some data.user.avatar_url,
      [⟨"Additional informations", info⟩], none⟩

/-! ## The color path (omega.py lines 124-154 and 172-176) -/

/-- The regex class `[A-Fa-f0-9]`. -/
def isHexDigitPy (c : Char) : Bool :=
  ('A' ≤ c && c ≤ 'F') || ('a' ≤ c && c ≤ 'f') || ('0' ≤ c && c ≤ '9')

/-- Python's `$` (no MULTILINE) at the position whose remaining suffix is
`rest`: matches at the very end, or just before a newline that ends the
string. -/
def dollarEnd (rest : List Char) : Bool :=
  decide (rest = []) || decide (rest = ['\n'])

/-- `re.match("^#([A-Fa-f0-9]\x7b6\x7d)$", content)` (omega.py line 172) viewed
as a boolean: a `#` at the start, exactly six hex digits, then `$`. -/
def colorCheck (content : String) : Bool :=
  match content.data with
  | [] => false
  | c0 :: rest =>
    decide (c0 = '#') && decide ((rest.take 6).length = 6) &&
      (rest.take 6).all isHexDigitPy && dollarEnd (rest.drop 6)

/-- `content.lstrip("#")` (omega.py line 173). -/
def pyLStripHash (content : String) : String :=
  String.mk (content.data.dropWhile (fun c => c = '#'))

/-- The color JSON record: `data["name"]["value"]` and the three component
mappings, each from a component letter to its display string. -/
structure ColorData where
  nameValue : String
  rgb : Char → String
  hsl : Char → String
  hsv : Char → String

/-- The hexadecimal value of one digit. -/
def hexVal (c : Char) : Nat :=
  if '0' ≤ c && c ≤ '9' then c.toNat - '0'.toNat
  else if 'a' ≤ c && c ≤ 'f' then c.toNat - 'a'.toNat + 10
  else if 'A' ≤ c && c ≤ 'F' then c.toNat - 'A'.toNat + 10
  else 0

/-- `int(s, base=16)` from Python on the inputs this program builds:
surrounding whitespace is ignored, and a non-empty all-hex text parses;
anything else raises ValueError, modelled as `none`. -/
def pyInt16 (s : String) : Option Nat :=
  let t := (s.data.dropWhile Char.isWhitespace).reverse.dropWhile
    Char.isWhitespace |>.reverse
  if t ≠ [] ∧ t.all isHexDigitPy = true then
    some (t.foldl (fun acc c => 16 * acc + hexVal c) 0)
  else none

/-- The observable platform actions a handler performs, in order. -/
inductive BotAction where
  | sendNotice (text : String)
  | sendEmbedMsg (embed : Option EmbedDocument)
  | addTrashReaction (messageId : Nat)
  | removeTrashReaction (messageId : Nat)
  | deleteMessage (messageId : Nat)
deriving DecidableEq, Repr

/-- One line `f"**{fmt.capitalize()}:**{', '.join(data[fmt][letter] for letter
in tuple(fmt))}"` of the color description. -/
def colorFormatLine (fmtName : String) (component : Char → String) : String :=
  "**" ++ capitalizePy fmtName ++ ":**" ++
    joinSep ", " (fmtName.data.map component)

/-- `make_color_embed(hex_code, message)` (omega.py lines 124-154), driven by
the HTTP oracle outcome `response`: a non-200 response sends the error notice
and returns None; a 200 response builds the embed. -/
def make_color_embed (response : Except Nat ColorData) (hex_code : String) :
    List BotAction × Option EmbedDocument :=
  match response with
  | Except.error status => ([BotAction.sendNotice (requestErrorText status)], none)
  | Except.ok data =>
    let title := data.nameValue ++ " color"
    let description := "**Hex:** #" ++ hex_code ++ "\n" ++
      joinNL [colorFormatLine "rgb" data.rgb, colorFormatLine "hsl" data.hsl,
        colorFormatLine "hsv" data.hsv]
    ([], some ⟨title, none, description, none, none, none, [],
      pyInt16 hex_code⟩)

/-- The color branch of `Omega.on_message` (omega.py lines 172-176): when the
content is a color token, call `make_color_embed` and then unconditionally
`message.channel.send(embed=color_embed)` — even when the lookup failed and
`color_embed` is None. -/
def colorMessageRoute (response : Except Nat ColorData) (content : String) :
    List BotAction :=
  if colorCheck content then
    let hex_code := pyLStripHash content
    let r := make_color_embed response hex_code
    r.1 ++ [BotAction.sendEmbedMsg r.2]
  else []

/-! ## The dismissible-embed registry (omega.py lines 163, 186-210) -/

/-- The `self.issue_embeds` dict: message id → stored value. -/
def Registry : Type := Nat → Option Nat

def regGet (r : Registry) (k : Nat) : Option Nat := r k

/-- `self.issue_embeds[issue_embed.id] = 1` (omega.py line 188). -/
def registerEmbed (r : Registry) (k : Nat) : Registry :=
  fun x => if x = k then some 1 else r x

/-- `dict.pop(k, None)`: the previous value (if any) and the dict without
`k`; never raises. -/
def regPopD (r : Registry) (k : Nat) : Option Nat × Registry :=
  (r k, fun x => if x = k then none else r x)

/-- `dict.pop(k)` with no default: raises KeyError (`Except.error`) when the
key is absent. -/
def regPopExn (r : Registry) (k : Nat) : Except Unit Registry :=
  match r k with
  | some _ => Except.ok (fun x => if x = k then none else r x)
  | none => Except.error ()

/-- `Omega.on_raw_reaction_add` (omega.py lines 195-210): bots are ignored;
on a trash-emoji reaction the entry is popped with default None and, when the
popped value is truthy, the message is deleted. -/
def on_raw_reaction_add (r : Registry) (emojiName : String) (messageId : Nat)
    (userIsBot : Bool) : Registry × List BotAction :=
  if userIsBot then (r, [])
  else if emojiName = "🗑️" then
    let p := regPopD r messageId
    match p.1 with
    | some v => if v ≠ 0 then (p.2, [BotAction.deleteMessage messageId]) else (p.2, [])
    | none => (p.2, [])
  else (r, [])

/-- The timeout cleanup at the end of the issue branch of `Omega.on_message`
(omega.py lines 190-193): after the 60-second sleep the trash reaction is
removed and the entry is popped with `self.issue_embeds.pop(issue_embed.id)` —
no default, so the pop raises KeyError when the entry is already gone. -/
def timeoutCleanup (r : Registry) (messageId : Nat) :
    List BotAction × Except Unit Registry :=
  ([BotAction.removeTrashReaction messageId], regPopExn r messageId)

/-! ## Claim-side (specification) definitions -/

/-- Modelled from the spec (section 4.3): the reference truncation algorithm —
`excess = length(result) - 1024 + 4`; repeatedly remove the line at index
`floor(count/2)` and subtract `length(removedLine) + 1` from `excess` until
`excess <= 0`; insert "..." at index `floor(remainingCount/2) + 1`; rejoin.
The removal loop is written with fuel: every iteration removes one line, so
`lines.length` rounds of fuel always suffice; exhausting the fuel or removing
from an empty list is `none` (the algorithm is undefined there). -/
def specRemoveMiddle (fuel : Nat) (excess : Int) (lines : List String) :
    Option (List String) :=
  if excess ≤ 0 then some lines
  else
    match fuel with
    | 0 => none
    | f + 1 =>
      match pyPop lines (lines.length / 2) with
      | none => none
      | some (line, rest) =>
        specRemoveMiddle f (excess - ((line.length : Int) + 1)) rest

/-- Modelled from the spec (section 4.3): the complete reference algorithm for
the Commits field value. -/
def specCommitsTrunc (lines : List String) : Option String :=
  let joined := joinNL lines
  if joined.length > 1024 then
    (specRemoveMiddle lines.length ((joined.length : Int) - 1024 + 4)
        lines).map
      (fun rem => joinNL (pyInsert (rem.length / 2 + 1) "..." rem))
  else some joined

/-- The selector-to-repository mapping of the spec (section 4.2). -/
def repoOfSelector : Option Char → String
  | some 'e' => "numworks/epsilon"
  | some 'u' => "UpsilonNumworks/Upsilon"
  | some 'l' => "Lambda-Numworks/Lambda"
  | _ => "omega-numworks/omega"

/-- Amended right boundary of an issue token, on the suffix that follows the
token: end of string, a space character, or a newline that ends the string. -/
def rightBoundary (rest : List Char) : Bool :=
  decide (rest = []) || decide (rest.head? = some ' ') ||
    decide (rest = ['\n'])

/-- Amended token shape at a position: `#`, a maximal non-empty run of decimal
digits, optionally one selector letter `e`/`u`/`l`, then a right boundary. -/
def specTokenParse : List Char → Option (String × String)
  | [] => none
  | c0 :: rest =>
    if c0 = '#' then
      let ds := rest.takeWhile isDigitC
      if ds = [] then none
      else
        match rest.drop ds.length with
        | [] => some (String.mk ds, repoOfSelector none)
        | c :: rest2 =>
          if c = 'e' ∨ c = 'u' ∨ c = 'l' then
            if rightBoundary rest2 then
              some (String.mk ds, repoOfSelector (some c))
            else none
          else if rightBoundary (c :: rest2) then
            some (String.mk ds, repoOfSelector none)
          else none
    else none

/-- Amended extraction: scan the content left to right; at every position
whose left boundary holds (start of string, or the previous character is a
space) emit the token starting there, if any; duplicates are preserved and
order is by first character. -/
def specScan (prev : Option Char) : List Char → List (String × String)
  | [] => []
  | c :: rest =>
    (if prev = none ∨ prev = some ' ' then (specTokenParse (c :: rest)).toList
     else []) ++ specScan (some c) rest

/-- The references the amended claim predicts for a message content. -/
def specRefs (s : String) : List (String × String) := specScan none s.data

/-- The emissions of the scan at non-initial positions: a token is emitted
just after each space character.  (Bridge function for the equivalence
proof.) -/
def tailEmissions : List Char → List (String × String)
  | [] => []
  | c :: rest =>
    (if c = ' ' then (specTokenParse rest).toList else []) ++
      tailEmissions rest

/-- A whitespace character, as in the claim's reading of the boundaries
(Python's `\s` on ASCII text). -/
def wsChar (c : Char) : Bool :=
  c = ' ' || c = '\t' || c = '\n' || c = '\r'

/-- Right boundary as the original claim states it: end of string or a
whitespace character. -/
def rightBoundaryWs (rest : List Char) : Bool :=
  decide (rest = []) || (match rest.head? with
    | some c => wsChar c
    | none => false)

/-- Token shape under the original claim's whitespace boundaries. -/
def specTokenParseWs : List Char → Option (String × String)
  | [] => none
  | c0 :: rest =>
    if c0 = '#' then
      let ds := rest.takeWhile isDigitC
      if ds = [] then none
      else
        match rest.drop ds.length with
        | [] => some (String.mk ds, repoOfSelector none)
        | c :: rest2 =>
          if c = 'e' ∨ c = 'u' ∨ c = 'l' then
            if rightBoundaryWs rest2 then
              some (String.mk ds, repoOfSelector (some c))
            else none
          else if rightBoundaryWs (c :: rest2) then
            some (String.mk ds, repoOfSelector none)
          else none
    else none

/-- Boundary character test lifted to the previous character, start of string
counting as a boundary. -/
def prevBoundaryWs : Option Char → Bool
  | none => true
  | some p => wsChar p

/-- Extraction under the original claim's whitespace boundaries. -/
def specScanWs (prev : Option Char) : List Char → List (String × String)
  | [] => []
  | c :: rest =>
    (if prevBoundaryWs prev then (specTokenParseWs (c :: rest)).toList
     else []) ++ specScanWs (some c) rest

/-- The references the claim, as stated (whitespace boundaries), predicts. -/
def specRefsWs (s : String) : List (String × String) := specScanWs none s.data

/-- The color token exactly as the claim states it: the entire content is `#`
followed by exactly six hexadecimal digits. -/
def exactColorToken (s : String) : Bool :=
  match s.data with
  | [] => false
  | c0 :: rest =>
    decide (c0 = '#') && decide (rest.length = 6) && rest.all isHexDigitPy

/-- The amended color token: the content is `#` plus six hex digits, possibly
followed by one final newline (which Python's `$` tolerates). -/
def amendedColorToken (s : String) : Bool :=
  exactColorToken s ||
    (decide (s.data.getLast? = some '\n') &&
      exactColorToken (String.mk s.data.dropLast))

/-! ## Concrete inputs used by witnesses and counterexamples -/

/-- An issue with one very long label, an open state and no pull request. -/
def bigLabelIssue : IssueData :=
  ⟨"Long label issue", "https://github.com/omega-numworks/omega/issues/9",
    "body", ⟨"alice", "https://github.com/alice", "https://a.example/av"⟩,
    false, none, 0, "open", ⟨"", "", ""⟩, "",
    [⟨String.mk (List.replicate 1100 'a')⟩]⟩

/-- An issue whose body has 3000 characters. -/
def longBodyIssue : IssueData :=
  ⟨"Long body issue", "https://github.com/omega-numworks/omega/issues/8",
    String.mk (List.replicate 3000 'a'),
    ⟨"bob", "https://github.com/bob", "https://a.example/bv"⟩,
    false, none, 0, "open", ⟨"", "", ""⟩, "", []⟩

/-- The embed `make_embed` produces for `longBodyIssue`. -/
def longBodyEmbed : EmbedDocument :=
  ⟨"Long body issue", some "https://github.com/omega-numworks/omega/issues/8",
    truncDescription longBodyIssue.body, some "bob",
    some "https://github.com/bob", some "https://a.example/bv",
    [⟨"Additional informations", joinNL (additionalInfos longBodyIssue)⟩],
    none⟩

/-- A pull-request issue used by the Commits-field witnesses. -/
def prIssue : IssueData :=
  ⟨"PR issue", "https://github.com/omega-numworks/omega/pull/7",
    "body", ⟨"carol", "https://github.com/carol", "https://a.example/cv"⟩,
    false, some ⟨"https://api.github.com/repos/omega-numworks/omega/pulls/7"⟩,
    2, "open", ⟨"", "", ""⟩, "", []⟩

/-- Two commits whose formatted lines join to more than 1024 characters. -/
def longCommits : List CommitData :=
  [⟨"aaaaaaaaa1", "https://example.com/a",
    String.mk (List.replicate 600 'x'), "alice"⟩,
   ⟨"bbbbbbbbb2", "https://example.com/b",
    String.mk (List.replicate 600 'y'), "bob"⟩]

/-- An issue record for the fetch-loop witness. -/
def simpleIssue : IssueData :=
  ⟨"Simple", "https://github.com/omega-numworks/omega/issues/1", "b",
    ⟨"dave", "https://github.com/dave", "https://a.example/dv"⟩,
    false, none, 0, "open", ⟨"", "", ""⟩, "", []⟩

/-- HTTP oracle for the fetch-loop witness: issue 1 of the default repository
resolves, every other URL answers 404. -/
def c5Oracle : String → Except Nat IssueData :=
  fun u =>
    if u = githubIssueUrl "omega-numworks/omega" "1" then Except.ok simpleIssue
    else Except.error 404

/-- A registry holding exactly the entry `7 ↦ 1`, as `register` leaves it. -/
def c6Registry : Registry := fun k => if k = 7 then some 1 else none

/-- A short commit, whose formatted line is far below the 1024 limit. -/
def shortCommit : CommitData :=
  ⟨"abcdef07", "https://example.com/s", "msg", "dev"⟩

/-- The Commits field of the embed built from `prIssue` and `shortCommit`. -/
def prShortCommitsField : EmbedField :=
  ⟨"Commits", joinNL ([shortCommit].map commitLine)⟩

/-- The embed `make_embed` produces for `prIssue` with the single short
commit. -/
def prShortEmbed : EmbedDocument :=
  ⟨"PR issue", some "https://github.com/omega-numworks/omega/pull/7",
    truncDescription prIssue.body, some "carol",
    some "https://github.com/carol", some "https://a.example/cv",
    [prShortCommitsField,
     ⟨"Additional informations", joinNL (additionalInfos prIssue)⟩],
    none⟩

/-! # Theorems -/

/-! ## Basic facts about the string helpers -/

theorem strLength_append (a b : String) : (a ++ b).length = a.length + b.length := by
  cases a with
  | mk da =>
    cases b with
    | mk db =>
      show (String.mk (da ++ db)).length = _
      simp [String.length]

theorem strLength_mk (l : List Char) : (String.mk l).length = l.length := rfl

/-- The two long commit lines join to 1285 characters. -/
theorem longCommits_joined_length :
    (joinNL (longCommits.map commitLine)).length = 1285 := by
  simp only [longCommits, List.map_cons, List.map_nil, joinNL]
  simp only [commitLine, pyTake, strLength_append, strLength_mk,
    List.length_take, List.length_replicate]
  decide

theorem joinNL_length_eq_cost (l : List String) (h : l ≠ []) :
    (joinNL l).length + 1 = cost l := by
  induction l with
  | nil => simp at h
  | cons x t ih =>
    cases t with
    | nil => simp [joinNL, cost]
    | cons y s =>
      have ht : y :: s ≠ [] := by simp
      have := ih ht
      show (x ++ "\n" ++ joinNL (y :: s)).length + 1 = x.length + 1 + cost (y :: s)
      rw [strLength_append, strLength_append]
      have hn : ("\n" : String).length = 1 := rfl
      omega

theorem pyPop_length {l : List String} {i : Nat} {x : String} {r : List String}
    (h : pyPop l i = some (x, r)) : r.length + 1 = l.length := by
  induction l generalizing i x r with
  | nil => simp [pyPop] at h
  | cons a t ih =>
    cases i with
    | zero => simp [pyPop] at h; simp [h.2.symm]
    | succ j =>
      simp only [pyPop] at h
      cases hp : pyPop t j with
      | none => rw [hp] at h; simp at h
      | some p =>
        rw [hp] at h
        simp only [Option.map_some', Option.some.injEq] at h
        have hr : r = a :: p.2 := (congrArg Prod.snd h).symm
        subst hr
        have := ih (i := j) (x := p.1) (r := p.2) (by rw [hp])
        simp only [List.length_cons]
        omega

theorem cost_pyPop {l : List String} {i : Nat} {x : String} {r : List String}
    (h : pyPop l i = some (x, r)) : cost r + (x.length + 1) = cost l := by
  induction l generalizing i x r with
  | nil => simp [pyPop] at h
  | cons a t ih =>
    cases i with
    | zero =>
      simp [pyPop] at h
      obtain ⟨hx, hr⟩ := h
      subst hx; subst hr
      simp [cost]; omega
    | succ j =>
      simp only [pyPop] at h
      cases hp : pyPop t j with
      | none => rw [hp] at h; simp at h
      | some p =>
        rw [hp] at h
        simp only [Option.map_some', Option.some.injEq] at h
        have hx : p.1 = x := congrArg Prod.fst h
        have hr : r = a :: p.2 := (congrArg Prod.snd h).symm
        subst hr
        have := ih (i := j) (x := p.1) (r := p.2) (by rw [hp])
        rw [hx] at this
        simp only [cost]
        omega

theorem cost_pyInsert (i : Nat) (x : String) (l : List String) :
    cost (pyInsert i x l) = x.length + 1 + cost l := by
  induction l generalizing i with
  | nil => simp only [pyInsert, cost]
  | cons y t ih =>
    cases i with
    | zero => simp only [pyInsert, cost]
    | succ j => simp only [pyInsert, cost, ih]; omega

theorem pyInsert_ne_nil (i : Nat) (x : String) (l : List String) :
    pyInsert i x l ≠ [] := by
  cases l with
  | nil => simp [pyInsert]
  | cons y t => cases i <;> simp [pyInsert]

theorem pyPop_isSome {l : List String} {i : Nat} (h : i < l.length) :
    (pyPop l i).isSome = true := by
  induction l generalizing i with
  | nil => simp at h
  | cons a t ih =>
    cases i with
    | zero => simp [pyPop]
    | succ j =>
      simp only [pyPop]
      have hj : j < t.length := by simp at h; omega
      have := ih (i := j) hj
      cases hq : pyPop t j with
      | none => rw [hq] at this; simp at this
      | some p => simp

/-! ## The truncation loop -/

/-- The loop output's cost is bounded: every iteration removes exactly as much
cost from the list as it subtracts from `diff`. -/
theorem truncLoop_cost {lines : List String} {diff : Int} {out : List String}
    (h : truncLoop lines diff = some out) : (cost out : Int) ≤ cost lines - diff := by
  suffices H : ∀ n (lines : List String) (diff : Int) (out : List String),
      lines.length ≤ n → truncLoop lines diff = some out →
      (cost out : Int) ≤ cost lines - diff from
    H lines.length lines diff out le_rfl h
  intro n
  induction n with
  | zero =>
    intro lines diff out hn h
    have : lines = [] := List.length_eq_zero.mp (by omega)
    subst this
    rw [truncLoop] at h
    split at h
    · cases h; omega
    · simp [pyPop] at h
  | succ m ih =>
    intro lines diff out hn h
    rw [truncLoop] at h
    split at h
    · cases h; omega
    · rename_i hpos
      split at h
      · exact absurd h (by simp)
      · rename_i line rest hp
        have hc := cost_pyPop hp
        have hl := pyPop_length hp
        have := ih rest _ out (by omega) h
        omega

/-- The loop never pops from an empty list and always returns `some` as long
as the total removable cost strictly exceeds the initial excess. -/
theorem truncLoop_isSome {lines : List String} {diff : Int}
    (h : diff < (cost lines : Int)) : (truncLoop lines diff).isSome = true := by
  suffices H : ∀ n (lines : List String) (diff : Int),
      lines.length ≤ n → diff < (cost lines : Int) →
      (truncLoop lines diff).isSome = true from
    H lines.length lines diff le_rfl h
  intro n
  induction n with
  | zero =>
    intro lines diff hn hd
    have : lines = [] := List.length_eq_zero.mp (by omega)
    subst this
    rw [truncLoop]
    split
    · simp
    · simp [cost] at hd
      omega
  | succ m ih =>
    intro lines diff hn hd
    rw [truncLoop]
    split
    · simp
    · rename_i hpos
      have hne : lines ≠ [] := by
        intro he
        subst he
        simp [cost] at hd
        omega
      have hlen : 0 < lines.length := List.length_pos.mpr hne
      have hmid : lines.length / 2 < lines.length := by omega
      have hs := pyPop_isSome hmid
      cases hp : pyPop lines (lines.length / 2) with
      | none => rw [hp] at hs; simp at hs
      | some p =>
        obtain ⟨line, rest⟩ := p
        have hc := cost_pyPop hp
        have hl := pyPop_length hp
        exact ih rest _ (by omega) (by omega)

/-- The fuel-based reference loop computes the while loop, whenever the fuel
covers the number of lines (every iteration removes one line). -/
theorem specRemoveMiddle_eq_truncLoop :
    ∀ (fuel : Nat) (lines : List String) (excess : Int), lines.length ≤ fuel →
      specRemoveMiddle fuel excess lines = truncLoop lines excess := by
  intro fuel
  induction fuel with
  | zero =>
    intro lines excess hf
    have : lines = [] := List.length_eq_zero.mp (by omega)
    subst this
    rw [specRemoveMiddle, truncLoop]
    split
    · rfl
    · rfl
  | succ f ih =>
    intro lines excess hf
    rw [specRemoveMiddle, truncLoop]
    split
    · rfl
    · cases hp : pyPop lines (lines.length / 2) with
      | none => rfl
      | some p =>
        obtain ⟨line, rest⟩ := p
        have hl := pyPop_length hp
        exact ih rest _ (by omega)

/-- The code's Commits-field computation coincides with the spec's reference
algorithm on every input. -/
theorem commitsValue_eq_specCommitsTrunc (lines : List String) :
    commitsValue lines = specCommitsTrunc lines := by
  simp only [commitsValue, specCommitsTrunc]
  split
  · rw [specRemoveMiddle_eq_truncLoop lines.length lines _ le_rfl]
  · rfl

/-- Any `some` result of the Commits-field computation has at most 1024
characters. -/
theorem commitsValue_le_1024 {lines : List String} {v : String}
    (h : commitsValue lines = some v) : v.length ≤ 1024 := by
  simp only [commitsValue] at h
  split at h
  · rename_i hgt
    have hne : lines ≠ [] := by
      intro he
      subst he
      simp [joinNL] at hgt
    cases htl : truncLoop lines ((((joinNL lines).length : Int)) - 1024 + 4) with
    | none => rw [htl] at h; simp at h
    | some rem =>
      rw [htl] at h
      simp only [Option.map_some', Option.some.injEq] at h
      have hcost := truncLoop_cost htl
      have hjc := joinNL_length_eq_cost lines hne
      have hrem : cost rem ≤ 1021 := by omega
      have hout := joinNL_length_eq_cost (pyInsert (rem.length / 2 + 1) "..." rem)
        (pyInsert_ne_nil _ _ _)
      rw [cost_pyInsert] at hout
      have hdots : ("..." : String).length = 3 := rfl
      rw [← h]
      omega
  · rename_i hle
    cases h
    omega

/-! ## Claim C1 — the Commits field reproduces the reference truncation
algorithm -/

/-- C1.  For every issue with pull-request info and every commits list whose
newline-joined rendering exceeds 1024 characters, the Commits field of the
embed `make_embed` builds (its first field) carries exactly the value computed
by the spec's reference algorithm (`specCommitsTrunc`): excess =
length - 1024 + 4; repeatedly remove the middle line (index `count / 2`,
recomputed) subtracting `length(removed) + 1` until the excess is gone; insert
a "..." line at index `remaining / 2 + 1`; rejoin. -/
theorem commits_field_matches_reference_algorithm
    (data : IssueData) (commits : List CommitData)
    (hpr : data.pull_request.isSome = true)
    (hlong : 1024 < (joinNL (commits.map commitLine)).length) :
    (make_embed data commits).map
        (fun e => (e.fields.head?).map (fun f => (f.name, f.value))) =
      (specCommitsTrunc (commits.map commitLine)).map
        (fun v => some ("Commits", v)) := by
  cases hp : data.pull_request with
  | none => rw [hp] at hpr; simp at hpr
  | some pr =>
    rw [← commitsValue_eq_specCommitsTrunc]
    simp only [make_embed, hp]
    cases hcv : commitsValue (commits.map commitLine) with
    | none => simp
    | some v => simp

/-- Witness for C1 at a concrete input: a registered pull request and two
commit lines of 641 characters each. -/
theorem commits_field_matches_reference_algorithm_witness :
    prIssue.pull_request.isSome = true ∧
    1024 < (joinNL (longCommits.map commitLine)).length ∧
    (make_embed prIssue longCommits).map
        (fun e => (e.fields.head?).map (fun f => (f.name, f.value))) =
      (specCommitsTrunc (longCommits.map commitLine)).map
        (fun v => some ("Commits", v)) := by
  have hlong : 1024 < (joinNL (longCommits.map commitLine)).length := by
    rw [longCommits_joined_length]
    omega
  exact ⟨rfl, hlong,
    commits_field_matches_reference_algorithm prIssue longCommits rfl hlong⟩

/-! ## Claim C10 — the truncation loop terminates and never pops an empty
list -/

/-- C10.  For every non-empty commits-line list whose joined rendering
exceeds 1024 characters, the initial excess is strictly below the total
removable cost (sum over the lines of length + 1), so the loop's excess
reaches zero or below before the list is exhausted: the Commits computation
returns a value rather than the IndexError case (`none`). -/
theorem trunc_loop_terminates (lines : List String)
    (hne : lines ≠ []) (hlong : 1024 < (joinNL lines).length) :
    ((joinNL lines).length : Int) - 1024 + 4 < (cost lines : Int) ∧
    (commitsValue lines).isSome = true := by
  have hjc := joinNL_length_eq_cost lines hne
  constructor
  · omega
  · simp only [commitsValue]
    rw [if_pos hlong]
    rw [Option.isSome_map']
    exact truncLoop_isSome (by omega)

/-- Witness for C10 at the concrete two-line input of 641 characters per
line. -/
theorem trunc_loop_terminates_witness :
    longCommits.map commitLine ≠ [] ∧
    1024 < (joinNL (longCommits.map commitLine)).length ∧
    (((joinNL (longCommits.map commitLine)).length : Int) - 1024 + 4 <
      (cost (longCommits.map commitLine) : Int) ∧
    (commitsValue (longCommits.map commitLine)).isSome = true) := by
  have hne : longCommits.map commitLine ≠ [] := by simp [longCommits]
  have hlong : 1024 < (joinNL (longCommits.map commitLine)).length := by
    rw [longCommits_joined_length]
    omega
  exact ⟨hne, hlong, trunc_loop_terminates (longCommits.map commitLine) hne hlong⟩

/-! ## Claim C3 — field-length invariant -/

/-- C3 counterexample.  The claim states every field value of every produced
embed has at most 1024 characters.  `bigLabelIssue` (one label of 1100
characters, open, no pull request) produces an embed whose single field,
"Additional informations", is 1142 characters long: the additional-infos list
is joined with no truncation at all. -/
theorem additional_informations_field_can_exceed_1024 :
    (make_embed bigLabelIssue []).map
        (fun e => e.fields.map (fun f => (f.name, f.value.length))) =
      some [("Additional informations", 1142)] := by
  have h1 : make_embed bigLabelIssue [] = some
      ⟨"Long label issue",
        some "https://github.com/omega-numworks/omega/issues/9",
        truncDescription bigLabelIssue.body, some "alice",
        some "https://github.com/alice", some "https://a.example/av",
        [⟨"Additional informations", joinNL (additionalInfos bigLabelIssue)⟩],
        none⟩ := rfl
  have h2 : additionalInfos bigLabelIssue =
      [":white_check_mark: Open",
       ":label: Labels: `" ++ String.mk (List.replicate 1100 'a') ++ "`"] := rfl
  have h3 : (joinNL (additionalInfos bigLabelIssue)).length = 1142 := by
    rw [h2]
    simp only [joinNL, strLength_append, strLength_mk, List.length_replicate]
    decide
  rw [h1]
  simp only [Option.map_some', List.map_cons, List.map_nil, Option.some.injEq]
  rw [h3]

/-- C3 amended.  Only the Commits field is truncated: every field named
"Commits" of every embed `make_embed` produces has a value of at most 1024
characters (the "Additional informations" field is unbounded, as the
counterexample shows). -/
theorem make_embed_commits_field_le_1024
    (data : IssueData) (commits : List CommitData) (e : EmbedDocument)
    (f : EmbedField) (he : make_embed data commits = some e)
    (hf : f ∈ e.fields) (hn : f.name = "Commits") :
    f.value.length ≤ 1024 := by
  simp only [make_embed] at he
  cases hp : data.pull_request with
  | none =>
    rw [hp] at he
    simp only [Option.some.injEq] at he
    subst he
    simp only [List.mem_singleton] at hf
    subst hf
    simp at hn
  | some pr =>
    rw [hp] at he
    cases hcv : commitsValue (commits.map commitLine) with
    | none => rw [hcv] at he; simp at he
    | some v =>
      rw [hcv] at he
      simp only [Option.some.injEq] at he
      subst he
      simp only [List.mem_cons, List.mem_singleton] at hf
      rcases hf with hf | hf | hf
      · subst hf
        exact commitsValue_le_1024 hcv
      · subst hf
        simp at hn
      · simp at hf

/-- Witness for the amended C3 at a concrete input: the Commits field of the
pull-request embed built from the two long commits. -/
theorem make_embed_commits_field_le_1024_witness :
    make_embed prIssue [shortCommit] = some prShortEmbed ∧
    prShortCommitsField ∈ prShortEmbed.fields ∧
    prShortCommitsField.name = "Commits" ∧
    prShortCommitsField.value.length ≤ 1024 :=
  ⟨rfl, List.mem_cons_self _ _, rfl,
    make_embed_commits_field_le_1024 prIssue [shortCommit] prShortEmbed
      prShortCommitsField rfl (List.mem_cons_self _ _) rfl⟩

/-! ## Claim C4 — description truncation -/

/-- C4.  `make_embed` keeps the description equal to the body when it is at
most 2048 characters long; otherwise the description is the first 2043
characters of the body followed by "[...]", 2048 characters in total. -/
theorem description_truncation (data : IssueData) (commits : List CommitData)
    (e : EmbedDocument) (he : make_embed data commits = some e) :
    (data.body.length ≤ 2048 → e.description = data.body) ∧
    (2048 < data.body.length →
      e.description = pyTake data.body 2043 ++ "[...]" ∧
      e.description.length = 2048) := by
  have hdesc : e.description = truncDescription data.body := by
    simp only [make_embed] at he
    cases hp : data.pull_request with
    | none =>
      rw [hp] at he
      simp only [Option.some.injEq] at he
      subst he
      rfl
    | some pr =>
      rw [hp] at he
      cases hcv : commitsValue (commits.map commitLine) with
      | none => rw [hcv] at he; simp at he
      | some v =>
        rw [hcv] at he
        simp only [Option.some.injEq] at he
        subst he
        rfl
  rw [hdesc]
  constructor
  · intro hle
    simp only [truncDescription]
    rw [if_neg (by omega)]
  · intro hgt
    simp only [truncDescription]
    rw [if_pos (by omega)]
    refine ⟨rfl, ?_⟩
    rw [strLength_append]
    have h1 : (pyTake data.body 2043).length = 2043 := by
      show (data.body.data.take 2043).length = 2043
      rw [List.length_take]
      have : data.body.data.length = data.body.length := rfl
      omega
    have h2 : ("[...]" : String).length = 5 := rfl
    omega

/-- Witness for C4 at a concrete input: a 3000-character body is cut to
exactly 2048 characters. -/
theorem description_truncation_witness :
    make_embed longBodyIssue [] = some longBodyEmbed ∧
    2048 < longBodyIssue.body.length ∧
    (longBodyEmbed.description = pyTake longBodyIssue.body 2043 ++ "[...]" ∧
      longBodyEmbed.description.length = 2048) := by
  have hb : longBodyIssue.body.length = 3000 := by
    show (String.mk (List.replicate 3000 'a')).length = 3000
    rw [strLength_mk, List.length_replicate]
  have hgt : 2048 < longBodyIssue.body.length := by omega
  exact ⟨rfl, hgt,
    (description_truncation longBodyIssue [] longBodyEmbed rfl).2 hgt⟩

/-! ## Claim C5 — a failed issue lookup aborts the whole batch -/

/-- C5.  If the references extracted from a message are `pre ++ (issue, repo)
:: post`, every reference of `pre` resolves and the lookup of `(issue, repo)`
answers a non-200 status, then `get_github_issues` sends exactly one notice —
the error text carrying that status code — yields exactly one record per
`pre`-reference (none for the failed one), and requests exactly the URLs of
`pre` plus the failing one: the references of `post` are never fetched. -/
theorem issue_fetch_failure_aborts_batch
    (http : String → Except Nat IssueData) (content : String)
    (pre : List (String × String)) (issue repo : String)
    (post : List (String × String)) (status : Nat)
    (hrefs : extractRefs content = pre ++ (issue, repo) :: post)
    (hpre : ∀ p ∈ pre, ∃ d, http (githubIssueUrl p.2 p.1) = Except.ok d)
    (hfail : http (githubIssueUrl repo issue) = Except.error status) :
    (get_github_issues http content).notices = [requestErrorText status] ∧
    (get_github_issues http content).requested =
      pre.map (fun p => githubIssueUrl p.2 p.1) ++ [githubIssueUrl repo issue] ∧
    (get_github_issues http content).yielded.length = pre.length := by
  unfold get_github_issues
  rw [hrefs]
  clear hrefs
  induction pre with
  | nil =>
    simp only [List.nil_append, List.map_nil, List.length_nil]
    simp only [issuesLoop]
    rw [hfail]
    simp
  | cons p t ih =>
    obtain ⟨hd, hok⟩ := hpre p (by simp)
    simp only [List.cons_append, issuesLoop]
    cases p with
    | mk pIssue pRepo =>
      simp only at hok
      rw [hok]
      have := ih (fun q hq => hpre q (by simp [hq]))
      simp only [List.map_cons, List.cons_append, List.length_cons,
        List.append_eq] at this ⊢
      exact ⟨this.1, by rw [this.2.1], by rw [this.2.2]⟩

/-- Witness for C5: content "#1 #2", an oracle that resolves issue 1 and
answers 404 for issue 2. -/
theorem issue_fetch_failure_aborts_batch_witness :
    extractRefs "#1 #2" =
      [("1", "omega-numworks/omega")] ++
        ("2", "omega-numworks/omega") :: [] ∧
    (∀ p ∈ [(("1" : String), ("omega-numworks/omega" : String))],
      ∃ d, c5Oracle (githubIssueUrl p.2 p.1) = Except.ok d) ∧
    c5Oracle (githubIssueUrl "omega-numworks/omega" "2") = Except.error 404 ∧
    ((get_github_issues c5Oracle "#1 #2").notices = [requestErrorText 404] ∧
      (get_github_issues c5Oracle "#1 #2").requested =
        [("1", ("omega-numworks/omega" : String))].map
          (fun p => githubIssueUrl p.2 p.1) ++
          [githubIssueUrl "omega-numworks/omega" "2"] ∧
      (get_github_issues c5Oracle "#1 #2").yielded.length =
        [(("1" : String), ("omega-numworks/omega" : String))].length) := by
  have h1 : extractRefs "#1 #2" =
      [("1", "omega-numworks/omega"), ("2", "omega-numworks/omega")] := by decide
  have h2 : ∀ p ∈ [(("1" : String), ("omega-numworks/omega" : String))],
      ∃ d, c5Oracle (githubIssueUrl p.2 p.1) = Except.ok d := by
    intro p hp
    simp only [List.mem_singleton] at hp
    subst hp
    exact ⟨simpleIssue, rfl⟩
  have h3 : c5Oracle (githubIssueUrl "omega-numworks/omega" "2") =
      Except.error 404 := rfl
  exact ⟨h1, h2, h3,
    issue_fetch_failure_aborts_batch c5Oracle "#1 #2"
      [("1", "omega-numworks/omega")] "2" "omega-numworks/omega" [] 404
      h1 h2 h3⟩

/-! ## Claim C6 — at most one deletion per message id -/

/-- C6.  For a registered message id (entry value 1, as `register` stores
it), the first qualifying dismiss reaction (trash emoji, non-bot actor, live
entry) deletes the message and removes the entry; a second dismiss reaction
for the same id finds no entry and performs no action; and the timeout path
only ever removes the reaction affordance — it never deletes a message, on
any registry state. -/
theorem dismiss_deletes_at_most_once (r : Registry) (mid : Nat)
    (h : regGet r mid = some 1) :
    (on_raw_reaction_add r "🗑️" mid false).2 = [BotAction.deleteMessage mid] ∧
    regGet (on_raw_reaction_add r "🗑️" mid false).1 mid = none ∧
    (on_raw_reaction_add (on_raw_reaction_add r "🗑️" mid false).1
      "🗑️" mid false).2 = [] ∧
    ∀ (r2 : Registry) (m2 : Nat),
      (timeoutCleanup r2 m2).1 = [BotAction.removeTrashReaction m2] := by
  have hr : r mid = some 1 := h
  simp only [on_raw_reaction_add, regPopD, regGet, if_pos, Bool.false_eq_true,
    if_false, if_true, hr]
  refine ⟨by simp, by simp, by simp, fun r2 m2 => rfl⟩

/-- Witness for C6 on the registry holding exactly the entry `7 ↦ 1`. -/
theorem dismiss_deletes_at_most_once_witness :
    regGet c6Registry 7 = some 1 ∧
    ((on_raw_reaction_add c6Registry "🗑️" 7 false).2 =
        [BotAction.deleteMessage 7] ∧
      regGet (on_raw_reaction_add c6Registry "🗑️" 7 false).1 7 = none ∧
      (on_raw_reaction_add (on_raw_reaction_add c6Registry "🗑️" 7 false).1
        "🗑️" 7 false).2 = [] ∧
      ∀ (r2 : Registry) (m2 : Nat),
        (timeoutCleanup r2 m2).1 = [BotAction.removeTrashReaction m2]) :=
  ⟨rfl, dismiss_deletes_at_most_once c6Registry 7 rfl⟩

/-! ## Claim C2 — the timeout cleanup on an already-dismissed entry -/

/-- C2 is a code bug: the claim (with the spec) says the timeout cleanup
drops the entry only if it still exists and never fails.  The code pops with
`self.issue_embeds.pop(issue_embed.id)` — no default — so once the entry was
removed by a reaction dismissal the cleanup raises KeyError.  Concretely:
register message 42, dismiss it by reaction, then run the timeout cleanup —
the pop raises (`Except.error`), it does not no-op. -/
theorem timeout_cleanup_raises_after_dismissal :
    (timeoutCleanup
      (on_raw_reaction_add (registerEmbed (fun _ => none) 42) "🗑️" 42
        false).1 42).2 = Except.error () ∧
    (timeoutCleanup
      (on_raw_reaction_add (registerEmbed (fun _ => none) 42) "🗑️" 42
        false).1 42).1 = [BotAction.removeTrashReaction 42] :=
  ⟨rfl, rfl⟩

/-! ## Claim C9 — failed color lookup still triggers a send -/

/-- C9 is a code bug: the claim (with the spec) says a failed color lookup
posts the error notice and the router performs no send for that message.  In
the code `make_color_embed` returns None after posting the notice, but
`Omega.on_message` still runs `await message.channel.send(embed=color_embed)`
unconditionally: the router performs a send action with no embed (which the
chat platform rejects as an empty message).  Evaluated on content "#a1b2c3"
with a 500 response: the notice carrying "500" is posted, and a send-embed
action with `none` follows. -/
theorem failed_color_lookup_still_sends :
    colorMessageRoute (Except.error 500) "#a1b2c3" =
      [BotAction.sendNotice "Erreur lors de la requête (500)",
       BotAction.sendEmbedMsg none] := by
  decide

/-! ## Claim C7 — the issue-reference extraction -/

theorem contains_eq_decide_mem (l : List Char) (x : Char) :
    l.contains x = decide (x ∈ l) := by
  simp [List.contains, List.elem_eq_mem]

/-- A decimal digit is never one of the characters stripped by
`strip("#e ")`, `strip("#u ")` or `strip("#l ")`. -/
theorem digit_not_mem_strip {x : Char} (hx : isDigitC x = true)
    (chars : List Char) (hchars : ∀ c ∈ chars, isDigitC c = false) :
    chars.contains x = false := by
  rw [contains_eq_decide_mem]
  rw [decide_eq_false]
  intro hmem
  have := hchars x hmem
  rw [this] at hx
  cases hx

/-- `s.strip(chars)` keeps exactly the middle block when the prefix and the
suffix consist of stripped characters and the middle starts and ends with
kept characters. -/
theorem pyStripChars_middle (chars pre mid suf : List Char)
    (hpre : ∀ c ∈ pre, chars.contains c = true)
    (hsuf : ∀ c ∈ suf, chars.contains c = true)
    (hmid : mid ≠ [])
    (hhead : ∀ x, mid.head? = some x → chars.contains x = false)
    (hlast : ∀ x, mid.getLast? = some x → chars.contains x = false) :
    pyStripChars chars (pre ++ mid ++ suf) = mid := by
  unfold pyStripChars
  have h1 : (pre ++ mid ++ suf).dropWhile (fun c => chars.contains c) =
      mid ++ suf := by
    rw [List.append_assoc]
    rw [List.dropWhile_append_of_pos hpre]
    cases hm : mid with
    | nil => exact absurd hm hmid
    | cons m0 mrest =>
      have hcon := hhead m0 (by rw [hm]; rfl)
      have hneg : ¬ ((fun c => chars.contains c) m0 = true) := by
        simp only [hcon]
        simp
      rw [List.cons_append, List.dropWhile_cons_of_neg hneg]
  rw [h1]
  have h2 : ((mid ++ suf).reverse).dropWhile (fun c => chars.contains c) =
      mid.reverse := by
    rw [List.reverse_append]
    rw [List.dropWhile_append_of_pos
      (by intro c hc; exact hsuf c (List.mem_reverse.mp hc))]
    cases hmr : mid.reverse with
    | nil =>
      rw [List.reverse_eq_nil_iff] at hmr
      exact absurd hmr hmid
    | cons r0 rrest =>
      have hh : mid.reverse.head? = some r0 := by rw [hmr]; rfl
      rw [List.head?_reverse] at hh
      have hcon := hlast r0 hh
      have hneg : ¬ ((fun c => chars.contains c) r0 = true) := by
        simp only [hcon]
        simp
      rw [List.dropWhile_cons_of_neg hneg]
  rw [h2, List.reverse_reverse]

/-- `pyStripChars` keeps a block untouched when its first and last characters
are kept. -/
theorem pyStripChars_id (chars mid : List Char) (hmid : mid ≠ [])
    (hhead : ∀ x, mid.head? = some x → chars.contains x = false)
    (hlast : ∀ x, mid.getLast? = some x → chars.contains x = false) :
    pyStripChars chars mid = mid := by
  have := pyStripChars_middle chars [] mid [] (by simp) (by simp) hmid hhead hlast
  simpa using this

/-- The strip chain of `get_github_issues` reduces every raw match to its
digit run, for every combination of leading/trailing space and selector
letter. -/
theorem issueOfToken_eq (lead trail : Bool) (ds : List Char)
    (letter : Option Char) (hds : ds ≠ []) (hall : ds.all isDigitC = true)
    (hletter : letter = none ∨ letter = some 'e' ∨ letter = some 'u' ∨
      letter = some 'l') :
    issueOfToken (TokenInfo.raw ⟨lead, ds, letter, trail⟩) = ds := by
  have hdig : ∀ x ∈ ds, isDigitC x = true := List.all_eq_true.mp hall
  have hhead1 : ∀ (chars : List Char), (∀ c ∈ chars, isDigitC c = false) →
      ∀ x, ds.head? = some x → chars.contains x = false := by
    intro chars hch x hx
    exact digit_not_mem_strip (hdig x (List.mem_of_mem_head? (by rw [hx]; rfl)))
      chars hch
  have hlast1 : ∀ (chars : List Char), (∀ c ∈ chars, isDigitC c = false) →
      ∀ x, ds.getLast? = some x → chars.contains x = false := by
    intro chars hch x hx
    exact digit_not_mem_strip (hdig x (List.mem_of_getLast?_eq_some hx)) chars hch
  have hch1 : ∀ c ∈ (['#', 'e', ' '] : List Char), isDigitC c = false := by decide
  have hch2 : ∀ c ∈ (['#', 'u', ' '] : List Char), isDigitC c = false := by decide
  have hch3 : ∀ c ∈ (['#', 'l', ' '] : List Char), isDigitC c = false := by decide
  have hpre1 : ∀ c ∈ ((if lead then [' '] else []) ++ ['#'] : List Char),
      (['#', 'e', ' '] : List Char).contains c = true := by
    cases lead <;> simp
  rcases hletter with hl | hl | hl | hl
  all_goals subst hl
  · -- no letter
    have hraw : TokenInfo.raw ⟨lead, ds, none, trail⟩ =
        ((if lead then [' '] else []) ++ ['#']) ++ ds ++
          (if trail then [' '] else []) := by
      simp [TokenInfo.raw, List.append_assoc]
    unfold issueOfToken
    rw [hraw]
    rw [pyStripChars_middle _ _ _ _ hpre1
      (by cases trail <;> simp) hds (hhead1 _ hch1) (hlast1 _ hch1)]
    rw [pyStripChars_id _ _ hds (hhead1 _ hch2) (hlast1 _ hch2)]
    exact pyStripChars_id _ _ hds (hhead1 _ hch3) (hlast1 _ hch3)
  · -- letter e
    have hraw : TokenInfo.raw ⟨lead, ds, some 'e', trail⟩ =
        ((if lead then [' '] else []) ++ ['#']) ++ ds ++
          ('e' :: (if trail then [' '] else [])) := by
      simp [TokenInfo.raw, List.append_assoc]
    unfold issueOfToken
    rw [hraw]
    rw [pyStripChars_middle _ _ _ _ hpre1
      (by cases trail <;> simp) hds (hhead1 _ hch1) (hlast1 _ hch1)]
    rw [pyStripChars_id _ _ hds (hhead1 _ hch2) (hlast1 _ hch2)]
    exact pyStripChars_id _ _ hds (hhead1 _ hch3) (hlast1 _ hch3)
  · -- letter u
    have hraw : TokenInfo.raw ⟨lead, ds, some 'u', trail⟩ =
        ((if lead then [' '] else []) ++ ['#']) ++ (ds ++ ['u']) ++
          (if trail then [' '] else []) := by
      simp [TokenInfo.raw, List.append_assoc]
    have hdsu : ds ++ ['u'] ≠ [] := by simp
    have hheadu : ∀ x, (ds ++ ['u']).head? = some x →
        (['#', 'e', ' '] : List Char).contains x = false := by
      intro x hx
      cases hd : ds with
      | nil => exact absurd hd hds
      | cons d dt =>
        rw [hd] at hx
        simp only [List.cons_append, List.head?_cons, Option.some.injEq] at hx
        subst hx
        exact digit_not_mem_strip (hdig d (by rw [hd]; simp)) _ hch1
    have hlastu : ∀ x, (ds ++ ['u']).getLast? = some x →
        (['#', 'e', ' '] : List Char).contains x = false := by
      intro x hx
      rw [List.getLast?_concat] at hx
      cases hx
      decide
    unfold issueOfToken
    rw [hraw]
    rw [pyStripChars_middle _ _ _ _ hpre1
      (by cases trail <;> simp) hdsu hheadu hlastu]
    have h2 : pyStripChars ['#', 'u', ' '] (ds ++ ['u']) = ds := by
      have := pyStripChars_middle ['#', 'u', ' '] [] ds ['u']
        (by simp) (by decide) hds (hhead1 _ hch2) (hlast1 _ hch2)
      simpa using this
    rw [h2]
    exact pyStripChars_id _ _ hds (hhead1 _ hch3) (hlast1 _ hch3)
  · -- letter l
    have hraw : TokenInfo.raw ⟨lead, ds, some 'l', trail⟩ =
        ((if lead then [' '] else []) ++ ['#']) ++ (ds ++ ['l']) ++
          (if trail then [' '] else []) := by
      simp [TokenInfo.raw, List.append_assoc]
    have hdsl : ds ++ ['l'] ≠ [] := by simp
    have hheadl : ∀ x, (ds ++ ['l']).head? = some x →
        (['#', 'e', ' '] : List Char).contains x = false := by
      intro x hx
      cases hd : ds with
      | nil => exact absurd hd hds
      | cons d dt =>
        rw [hd] at hx
        simp only [List.cons_append, List.head?_cons, Option.some.injEq] at hx
        subst hx
        exact digit_not_mem_strip (hdig d (by rw [hd]; simp)) _ hch1
    have hlastl : ∀ x, (ds ++ ['l']).getLast? = some x →
        (['#', 'e', ' '] : List Char).contains x = false := by
      intro x hx
      rw [List.getLast?_concat] at hx
      cases hx
      decide
    have hheadl2 : ∀ x, (ds ++ ['l']).head? = some x →
        (['#', 'u', ' '] : List Char).contains x = false := by
      intro x hx
      cases hd : ds with
      | nil => exact absurd hd hds
      | cons d dt =>
        rw [hd] at hx
        simp only [List.cons_append, List.head?_cons, Option.some.injEq] at hx
        subst hx
        exact digit_not_mem_strip (hdig d (by rw [hd]; simp)) _ hch2
    have hlastl2 : ∀ x, (ds ++ ['l']).getLast? = some x →
        (['#', 'u', ' '] : List Char).contains x = false := by
      intro x hx
      rw [List.getLast?_concat] at hx
      cases hx
      decide
    unfold issueOfToken
    rw [hraw]
    rw [pyStripChars_middle _ _ _ _ hpre1
      (by cases trail <;> simp) hdsl hheadl hlastl]
    rw [pyStripChars_id _ _ hdsl hheadl2 hlastl2]
    have h3 : pyStripChars ['#', 'l', ' '] (ds ++ ['l']) = ds := by
      have := pyStripChars_middle ['#', 'l', ' '] [] ds ['l']
        (by simp) (by decide) hds (hhead1 _ hch3) (hlast1 _ hch3)
      simpa using this
    exact h3

/-- The membership tests `"e" in i[0]` etc. of `get_github_issues` recover
exactly the selector letter of the match: the other characters of a raw token
(spaces, `#`, digits) are never `e`, `u` or `l`. -/
theorem repoOfToken_eq (lead trail : Bool) (ds : List Char)
    (letter : Option Char) (hall : ds.all isDigitC = true)
    (hletter : letter = none ∨ letter = some 'e' ∨ letter = some 'u' ∨
      letter = some 'l') :
    repoOfToken (TokenInfo.raw ⟨lead, ds, letter, trail⟩) =
      repoOfSelector letter := by
  have hdig : ∀ x ∈ ds, isDigitC x = true := List.all_eq_true.mp hall
  have hnotds : ∀ (x : Char), isDigitC x = false → x ∉ ds := by
    intro x hx hmem
    rw [hdig x hmem] at hx
    cases hx
  have hne : ('e' : Char) ∉ ds := hnotds 'e' (by decide)
  have hnu : ('u' : Char) ∉ ds := hnotds 'u' (by decide)
  have hnl : ('l' : Char) ∉ ds := hnotds 'l' (by decide)
  rcases hletter with hl | hl | hl | hl <;> subst hl <;>
    cases lead <;> cases trail <;>
      simp [repoOfToken, repoOfSelector, TokenInfo.raw, contains_eq_decide_mem,
        hne, hnu, hnl]

/-- A raw match is reduced by `get_github_issues` to the reference
(digit run, selected repository). -/
theorem refOfToken_eq (lead trail : Bool) (ds : List Char)
    (letter : Option Char) (hds : ds ≠ []) (hall : ds.all isDigitC = true)
    (hletter : letter = none ∨ letter = some 'e' ∨ letter = some 'u' ∨
      letter = some 'l') :
    refOfToken ⟨lead, ds, letter, trail⟩ =
      (String.mk ds, repoOfSelector letter) := by
  unfold refOfToken
  rw [issueOfToken_eq lead trail ds letter hds hall hletter,
    repoOfToken_eq lead trail ds letter hall hletter]

/-- The engine's match at one position, mapped through the reference
extraction, is exactly the amended claim's token parse: same digit run, same
selector, same right-boundary acceptance ($ at the end, before a final
newline, or a space). -/
theorem matchHash_map_refOf (lead : Bool) (cs : List Char) :
    (matchHash lead cs).map refOfToken = specTokenParse cs := by
  cases cs with
  | nil => rfl
  | cons c0 rest =>
    simp only [matchHash, specTokenParse]
    by_cases hc0 : c0 = '#'
    · rw [if_pos hc0, if_pos hc0]
      by_cases hds : rest.takeWhile isDigitC = []
      · rw [if_pos hds, if_pos hds]
        rfl
      · rw [if_neg hds, if_neg hds]
        have hall : (rest.takeWhile isDigitC).all isDigitC = true :=
          List.all_takeWhile
        cases hdrop : rest.drop (rest.takeWhile isDigitC).length with
        | nil =>
          simp only [Option.map_some']
          rw [refOfToken_eq _ _ _ _ hds hall (Or.inl rfl)]
        | cons c rest2 =>
          dsimp only
          by_cases hlet : c = 'e' ∨ c = 'u' ∨ c = 'l'
          · rw [if_pos hlet, if_pos hlet]
            have hl : (some c = none ∨ some c = some 'e' ∨
                some c = some 'u' ∨ some c = some 'l') := by
              rcases hlet with h | h | h <;> simp [h]
            by_cases h1 : rest2 = [] ∨ rest2 = ['\n']
            · rw [if_pos h1]
              have hrb : rightBoundary rest2 = true := by
                rcases h1 with h | h <;> subst h <;> decide
              rw [if_pos hrb]
              simp only [Option.map_some']
              rw [refOfToken_eq _ _ _ _ hds hall hl]
            · rw [if_neg h1]
              push_neg at h1
              by_cases h2 : rest2.head? = some ' '
              · rw [if_pos h2]
                have hrb : rightBoundary rest2 = true := by
                  unfold rightBoundary
                  rw [decide_eq_true h2]
                  simp
                rw [if_pos hrb]
                simp only [Option.map_some']
                rw [refOfToken_eq _ _ _ _ hds hall hl]
              · rw [if_neg h2]
                have hrb : rightBoundary rest2 = false := by
                  unfold rightBoundary
                  rw [decide_eq_false h1.1, decide_eq_false h1.2,
                    decide_eq_false h2]
                  rfl
                rw [if_neg (by rw [hrb]; simp)]
                rfl
          · rw [if_neg hlet, if_neg hlet]
            by_cases h3 : c = '\n' ∧ rest2 = []
            · rw [if_pos h3]
              have hrb : rightBoundary (c :: rest2) = true := by
                obtain ⟨hc, hr⟩ := h3
                subst hc
                subst hr
                decide
              rw [if_pos hrb]
              simp only [Option.map_some']
              rw [refOfToken_eq _ _ _ _ hds hall (Or.inl rfl)]
            · rw [if_neg h3]
              by_cases h4 : c = ' '
              · rw [if_pos h4]
                have hrb : rightBoundary (c :: rest2) = true := by
                  subst h4
                  unfold rightBoundary
                  simp
                rw [if_pos hrb]
                simp only [Option.map_some']
                rw [refOfToken_eq _ _ _ _ hds hall (Or.inl rfl)]
              · rw [if_neg h4]
                have hrb : rightBoundary (c :: rest2) = false := by
                  unfold rightBoundary
                  rw [decide_eq_false (by simp : ¬(c :: rest2 = []))]
                  rw [decide_eq_false (by simp [h4] :
                    ¬((c :: rest2).head? = some ' '))]
                  rw [decide_eq_false (by
                    intro hcon
                    simp at hcon
                    exact h3 ⟨hcon.1, hcon.2⟩)]
                  rfl
                rw [if_neg (by rw [hrb]; simp)]
                rfl
    · rw [if_neg hc0, if_neg hc0]
      rfl

theorem toList_map_ref (o : Option TokenInfo) :
    (o.toList).map refOfToken = (o.map refOfToken).toList := by
  cases o <;> rfl

/-- At a non-initial scan position the engine emits the token that follows a
space, nothing else: mapped to references this is `tailEmissions`. -/
theorem findallAux_false_eq_tail (cs : List Char) :
    (findallAux false cs).map refOfToken = tailEmissions cs := by
  induction cs with
  | nil => rfl
  | cons c rest ih =>
    have hstep : scanStep false (c :: rest) =
        (if c = ' ' then matchHash true rest else none) := rfl
    simp only [findallAux, tailEmissions, List.map_append, hstep, ih]
    rw [toList_map_ref]
    by_cases hc : c = ' '
    · rw [if_pos hc, if_pos hc, matchHash_map_refOf]
    · rw [if_neg hc, if_neg hc]
      rfl

/-- The claim-side scan splits into its first-position emission and the
emissions after each space. -/
theorem specScan_decompose (cs : List Char) (prev : Option Char) :
    specScan prev cs =
      (if prev = none ∨ prev = some ' ' then (specTokenParse cs).toList
       else []) ++ tailEmissions cs := by
  induction cs generalizing prev with
  | nil =>
    simp [specScan, tailEmissions, specTokenParse]
  | cons c rest ih =>
    simp only [specScan, tailEmissions]
    rw [ih (some c)]
    have hiff : ((some c = none ∨ some c = some ' ') : Prop) ↔ c = ' ' := by
      simp
    have hy : (if some c = none ∨ some c = some ' '
          then (specTokenParse rest).toList
          else ([] : List (String × String))) =
        (if c = ' ' then (specTokenParse rest).toList else []) :=
      if_congr hiff rfl rfl
    rw [hy]

/-- C7 amended.  For every message text, the extraction finds exactly the
tokens `#` + digits + optional `e`/`u`/`l` whose left boundary is the start
of the string or a single space character and whose right boundary is the
end of the string, a space character, or a newline that ends the string
(Python's `$`); matches are produced in left-to-right order of their first
character and duplicates are preserved.  (The original claim said
"whitespace"; the code's pattern only accepts a literal space, see the
counterexample.) -/
theorem extractRefs_eq_specRefs (s : String) : extractRefs s = specRefs s := by
  unfold extractRefs specRefs findallModel
  generalize s.data = cs
  cases cs with
  | nil => rfl
  | cons c rest =>
    simp only [findallAux, List.map_append, findallAux_false_eq_tail]
    rw [specScan_decompose (c :: rest) none]
    rw [if_pos (Or.inl rfl)]
    rw [toList_map_ref]
    simp only [tailEmissions]
    rw [← List.append_assoc]
    congr 1
    cases hmh : matchHash false (c :: rest) with
    | some t =>
      have hc0 : c = '#' := by
        by_cases h : c = '#'
        · exact h
        · rw [show matchHash false (c :: rest) = none from by
            simp only [matchHash]; rw [if_neg h]] at hmh
          cases hmh
      have hstep : scanStep true (c :: rest) = some t := by
        simp only [scanStep, hmh, if_true]
      rw [hstep]
      have hparse : specTokenParse (c :: rest) = some (refOfToken t) := by
        rw [← matchHash_map_refOf false (c :: rest), hmh]
        rfl
      rw [hparse]
      rw [if_neg (by rw [hc0]; decide)]
      rfl
    | none =>
      have hstep : scanStep true (c :: rest) =
          (if c = ' ' then matchHash true rest else none) := by
        simp only [scanStep, hmh, if_true]
      rw [hstep]
      have hparse : specTokenParse (c :: rest) = none := by
        rw [← matchHash_map_refOf false (c :: rest), hmh]
        rfl
      rw [hparse]
      by_cases hc : c = ' '
      · rw [if_pos hc, if_pos hc, matchHash_map_refOf]
        rfl
      · rw [if_neg hc, if_neg hc]
        rfl

/-- C7 counterexample.  The claim as stated accepts any whitespace as a token
boundary.  On the content "#1<TAB>" the claim's extraction (whitespace
boundaries, `specRefsWs`) finds the reference {1, default}, but the code's
pattern requires a literal space (or the end of the string) and finds
nothing: `re.findall` with `($| )` does not match before a tab. -/
theorem extraction_misses_tab_bounded_token :
    extractRefs "#1\t" = [] ∧
    specRefsWs "#1\t" = [("1", "omega-numworks/omega")] := by
  constructor
  · rfl
  · rfl

/-! ## Claim C8 — the color-token check -/

/-- Helper: the claim-side exact color token can never hold on
`('#' :: rest).dropLast` unless `rest` has exactly 7 characters. -/
theorem exact_dropLast_false {rest : List Char} (h : rest.length ≠ 7) :
    exactColorToken (String.mk (('#' :: rest).dropLast)) = false := by
  cases rest with
  | nil => rfl
  | cons r rs =>
    rw [List.dropLast_cons₂]
    have hlen : rs.length ≠ 6 := by
      simp only [List.length_cons] at h
      omega
    simp [exactColorToken, hlen]

/-- C8 amended.  The color-token check succeeds exactly when the entire
content is `#` followed by six hexadecimal digits, optionally followed by one
final newline: Python's `$` also matches just before a newline that ends the
string, so `re.match("^#([A-Fa-f0-9]..)$", content)` accepts the trailing
newline the original claim excluded. -/
theorem colorCheck_eq_amendedColorToken (s : String) :
    colorCheck s = amendedColorToken s := by
  obtain ⟨cs⟩ := s
  cases cs with
  | nil => rfl
  | cons c0 rest =>
    by_cases hc0 : c0 = '#'
    · subst hc0
      have hcc : colorCheck (String.mk ('#' :: rest)) =
          (decide ((rest.take 6).length = 6) &&
            (rest.take 6).all isHexDigitPy && dollarEnd (rest.drop 6)) := by
        simp [colorCheck]
      have hex1 : exactColorToken (String.mk ('#' :: rest)) =
          (decide (rest.length = 6) && rest.all isHexDigitPy) := by
        simp [exactColorToken]
      have ham : amendedColorToken (String.mk ('#' :: rest)) =
          ((decide (rest.length = 6) && rest.all isHexDigitPy) ||
            (decide (('#' :: rest).getLast? = some '\n') &&
              exactColorToken (String.mk (('#' :: rest).dropLast)))) := by
        unfold amendedColorToken
        dsimp only
        rw [hex1]
      rw [hcc, ham]
      rcases Nat.lt_or_ge rest.length 6 with hlen | hlen
      · have h6 : ¬ rest.length = 6 := by omega
        rw [List.take_of_length_le (by omega), exact_dropLast_false (by omega)]
        simp [h6]
      · rcases Nat.lt_or_ge rest.length 7 with hlen7 | hlen7
        · -- length exactly 6
          have h6 : rest.length = 6 := by omega
          rw [List.take_of_length_le (by omega),
            List.drop_eq_nil_of_le (by omega),
            exact_dropLast_false (by omega)]
          simp [dollarEnd, h6]
        · rcases Nat.lt_or_ge rest.length 8 with hlen8 | hlen8
          · -- length exactly 7
            have h7 : rest.length = 7 := by omega
            have h1 : (rest.take 6).length = 6 := by
              rw [List.length_take]
              omega
            cases hd : rest.drop 6 with
            | nil =>
              rw [List.drop_eq_nil_iff] at hd
              omega
            | cons x xs =>
              have hxs : xs = [] := by
                have hl : (rest.drop 6).length = rest.length - 6 :=
                  List.length_drop 6 rest
                rw [hd] at hl
                simp only [List.length_cons] at hl
                have : xs.length = 0 := by omega
                exact List.length_eq_zero.mp this
              subst hxs
              have hsplit : rest = rest.take 6 ++ [x] := by
                have htd := List.take_append_drop 6 rest
                rw [hd] at htd
                exact htd.symm
              have hgl : ('#' :: rest).getLast? = some x := by
                conv_lhs => rw [hsplit]
                rw [← List.cons_append, List.getLast?_concat]
              have hdl : ('#' :: rest).dropLast = '#' :: rest.take 6 := by
                conv_lhs => rw [hsplit]
                rw [← List.cons_append, List.dropLast_concat]
              rw [hgl, hdl]
              have hex2 : exactColorToken (String.mk ('#' :: rest.take 6)) =
                  (rest.take 6).all isHexDigitPy := by
                simp [exactColorToken, h1]
              rw [hex2]
              have h6f : ¬ rest.length = 6 := by omega
              simp [dollarEnd, h1, h6f, Bool.and_comm]
          · -- length at least 8
            have hne1 : rest.drop 6 ≠ [] := by
              rw [Ne, List.drop_eq_nil_iff]
              omega
            have hne2 : rest.drop 6 ≠ ['\n'] := by
              intro h
              have := congrArg List.length h
              rw [List.length_drop] at this
              simp only [List.length_cons, List.length_nil] at this
              omega
            have hde : dollarEnd (rest.drop 6) = false := by
              unfold dollarEnd
              rw [decide_eq_false hne1, decide_eq_false hne2]
              rfl
            rw [hde, exact_dropLast_false (by omega)]
            have h6f : ¬ rest.length = 6 := by omega
            simp [h6f]
    · have hcc : colorCheck (String.mk (c0 :: rest)) = false := by
        simp [colorCheck, hc0]
      have hex1 : exactColorToken (String.mk (c0 :: rest)) = false := by
        simp [exactColorToken, hc0]
      have hex2 : exactColorToken (String.mk ((c0 :: rest).dropLast)) = false := by
        cases rest with
        | nil => rfl
        | cons r rs =>
          rw [List.dropLast_cons₂]
          simp [exactColorToken, hc0]
      have ham : amendedColorToken (String.mk (c0 :: rest)) = false := by
        unfold amendedColorToken
        dsimp only
        rw [hex1, hex2]
        simp
      rw [hcc, ham]

/-- C8 counterexample.  The claim says the check succeeds exactly when the
entire content is `#` plus six hex digits; yet the content "#a1b2c3\n" — which
has a trailing newline and is not of that shape — passes the code's check,
because Python's `$` matches before a string-final newline. -/
theorem color_check_accepts_trailing_newline :
    colorCheck "#a1b2c3\n" = true ∧ exactColorToken "#a1b2c3\n" = false := by
  constructor
  · rfl
  · rfl

end OmegaRobot
